import Mathlib

/-!
Verification of the word-count API (`src/main.go`, package `wordcounter`).

The development shallowly embeds the program's core:

* the tokenizer of `processText` (`strings.ToLower` followed by
  `regexp.MustCompile("\\b[\\p\x7bL\x7d]+\\b").FindAllString`),
* the frequency aggregation and `sort.Slice` ranking of `processText`,
* `extractPDFText`, `isValidContentType`, `handleUpload`,
  `handleGetAnalysis` and the `Store` map.

Machine-independent conventions: Go maps' nondeterministic iteration order
becomes an explicit `order` parameter constrained to be a permutation of
the distinct keys; the identifier generator (`uuid.New().String()`) becomes
an explicit `newId` parameter; I/O outcomes become `Except` values.
-/

namespace WordCountApi

/-! ### Character classes of the tokenizer regex

The regex is applied after `strings.ToLower`.  `[\p\x7bL\x7d]` is the Unicode
letter class and `\b` is Go's ASCII word boundary (a transition between
`[0-9A-Za-z_]` and anything else, including the ends of the text).  The
letter classifier and the lowering below are modelled on the ASCII range
only: outside it, `Char.isAlpha` misses the non-ASCII letters of
`\p\x7bL\x7d` and `Char.toLower` misses the non-ASCII mappings of
`strings.ToLower`.  The embedding of the tokenizer is therefore exact
precisely for ASCII texts; accordingly, every concrete input below is
ASCII, and the one theorem whose truth depends on the letter class
(`tokenizeGo_eq_letter_runs`) carries an explicit hypothesis confining
the text to the ASCII range.
-/

/-- The character lies in the ASCII range — the range on which the
classifiers and the lowering of this embedding agree exactly with the
Unicode ones of the program. -/
def isAsciiChar (c : Char) : Bool := c.toNat < 128

/-- The Unicode letter class of the regex, modelled on the ASCII range
(where it is `Char.isAlpha`); non-ASCII letters are outside the scope of
this embedding. -/
def isLetterGo (c : Char) : Bool := c.isAlpha

/-- Go's ASCII word-character class used by the boundary assertion:
digits, letters and the underscore. -/
def isWordCharGo (c : Char) : Bool := c.isAlphanum || c == '_'

/-- Word-character test of an optional character; the ends of the text
count as non-word positions. -/
def optWordChar : Option Char → Bool
  | none => false
  | some c => isWordCharGo c

/-- Backtracking step of the greedy `+`: the candidate run is given in
reverse; drop characters from its end until the trailing boundary
assertion holds, as the regex engine does. -/
def shrinkRev (next : Option Char) : List Char → Option (List Char)
  | [] => none
  | c :: rs => if isWordCharGo c != optWordChar next then some (c :: rs) else shrinkRev (some c) rs

/-- One left-to-right scan of `FindAllString` for the pattern
matching a boundary, one or more letters, then a boundary: at each
position whose character is a letter and where the leading boundary
holds, greedily take the maximal letter run and shrink it until the
trailing boundary holds; on success emit the match and resume after it,
otherwise advance one character.  The `Nat` argument bounds the
recursion; every step consumes at least one character, so the length of
the text is a sufficient bound. -/
def goFindAllB : Nat → Option Char → List Char → List (List Char)
  | 0, _, _ => []
  | _ + 1, _, [] => []
  | n + 1, p, c :: cs =>
    if isLetterGo c && (optWordChar p != isWordCharGo c) then
      match shrinkRev (cs.dropWhile isLetterGo).head? (c :: cs.takeWhile isLetterGo).reverse with
      | some m => m.reverse :: goFindAllB n m.head? ((c :: cs).drop m.length)
      | none => goFindAllB n (some c) cs
    else goFindAllB n (some c) cs

/-- All matches of the word regex in a character list. -/
def goFindAll (cs : List Char) : List (List Char) := goFindAllB cs.length none cs

/-- The tokenizer of `processText`: lower-case the text, then collect all
matches of the word regex.  `Char.toLower` coincides with the mapping of
`strings.ToLower` exactly on the ASCII range (and maps every non-ASCII
character, letter or not, to itself), so this embedding of the tokenizer
is exact for ASCII texts and is relied on only there. -/
def tokenizeGo (s : String) : List String :=
  (goFindAll (s.toList.map Char.toLower)).map List.asString

/-! ### The tokenizer the specification describes -/

/-- Maximal runs of letter characters, in left-to-right order, every
non-letter acting purely as a separator; the `Nat` argument bounds the
recursion as in `goFindAllB`. -/
def letterRunsB : Nat → List Char → List (List Char)
  | 0, _ => []
  | _ + 1, [] => []
  | n + 1, c :: cs =>
    if isLetterGo c then
      (c :: cs.takeWhile isLetterGo) :: letterRunsB n (cs.dropWhile isLetterGo)
    else
      letterRunsB n cs

/-- Maximal letter runs of a character list. -/
def letterRuns (cs : List Char) : List (List Char) := letterRunsB cs.length cs

/-- Modelled from the spec: the tokenizer contract of section 4.1 —
lower-case the text, then emit each maximal run of letter characters as
one token, in left-to-right order of appearance.  The spec asks for full
Unicode case-folding and Unicode letter runs; this model realizes both
on the ASCII range only (where folding is the A–Z mapping and letters
are A–Z, a–z) and is relied on only there. -/
def tokenizeSpec (s : String) : List String :=
  (letterRuns (s.toList.map Char.toLower)).map List.asString

/-! ### Frequency aggregation (`processText`, lines 172–191) -/

/-- The `WordFrequency` struct of `main.go`. -/
structure WordFrequency where
  Word : String
  Frequency : Nat
deriving DecidableEq

/-- The comparison realized by `sort.Slice(result, func(i, j) bool
\x7b return result[i].Frequency > result[j].Frequency \x7d)`: the resulting
slice is ordered by non-increasing frequency. -/
def freqGe (a b : WordFrequency) : Prop := b.Frequency ≤ a.Frequency

instance : DecidableRel freqGe := fun a b => Nat.decLe b.Frequency a.Frequency

instance : IsTotal WordFrequency freqGe := ⟨fun a b => Nat.le_total b.Frequency a.Frequency⟩

instance : IsTrans WordFrequency freqGe := ⟨fun _ _ _ hab hbc => Nat.le_trans hbc hab⟩

/-- The `sort.Slice` call of `processText`.  `sort.Slice` guarantees a
permutation ordered by the comparison; for slices shorter than twelve
elements Go runs exactly this insertion sort, which realizes one of the
permitted outcomes in general. -/
def sortFreqs (l : List WordFrequency) : List WordFrequency := l.insertionSort freqGe

/-- The counting loop and slice conversion of `processText`: the Go map
`frequencies` holds each distinct token with its number of occurrences;
the map is then iterated in the order `order` (Go map iteration order is
not specified) and each entry becomes one `WordFrequency`; finally the
slice is sorted by frequency descending. -/
def aggregate (tokens order : List String) : List WordFrequency :=
  sortFreqs (order.map fun w => ⟨w, tokens.count w⟩)

/-- `order` is a possible iteration order of the Go map built from
`tokens`: a permutation of the distinct tokens. -/
def ValidIterOrder (tokens order : List String) : Prop := order.Perm tokens.dedup

instance (tokens order : List String) : Decidable (ValidIterOrder tokens order) :=
  List.decidablePerm order tokens.dedup

/-- `processText` of `main.go`: tokenize the lower-cased text, count
occurrences, convert to a slice in map-iteration order and sort by
frequency descending. -/
def processText (text : String) (order : List String) : List WordFrequency :=
  aggregate (tokenizeGo text) order

/-! ### The store and the handlers -/

/-- The `Analysis` struct of `main.go`. -/
structure Analysis where
  ID : String
  Frequencies : List WordFrequency
deriving DecidableEq

/-- The `Store` of `main.go`: a map from identifier to `Analysis`,
embedded as an association list with at most one live entry per key. -/
abbrev Store := List (String × Analysis)

/-- Map lookup `store.analyses[id]` (the read of `handleGetAnalysis`). -/
def Store.get (st : Store) (id : String) : Option Analysis :=
  (st.find? fun e => e.1 == id).map (·.2)

/-- Map update `store.analyses[id] = a` (the write of `handleUpload`):
any previous entry under the key is replaced. -/
def Store.set (st : Store) (id : String) (a : Analysis) : Store :=
  (id, a) :: st.filter fun e => e.1 != id

/-- The commit step of `handleUpload` (lines 101–110): build an
`Analysis` whose `ID` is the fresh identifier and insert it under that
identifier.  The identifier generator is the `uuid` collaborator and is
passed in as `id`. -/
def Store.create (st : Store) (id : String) (f : List WordFrequency) : Store :=
  Store.set st id { ID := id, Frequencies := f }

/-- The page-reading collaborator interface of `extractPDFText`:
`reader.NumPage()` and `reader.Page(i).GetPlainText()`. -/
structure PDFDoc where
  numPages : Nat
  pageText : Nat → Except Unit String

/-- The error cases of `extractPDFText`: the byte stream could not be
read, or `pdf.NewReader` rejected the bytes. -/
inductive PDFErr where
  | readErr
  | decodeErr
deriving DecidableEq

/-- An uploaded file as the handler observes it: the outcome of
`io.ReadAll` on its bytes, and the outcome of `pdf.NewReader` on the
fully-read bytes. -/
structure FileInput where
  readAll : Except Unit String
  pdfDoc : Except Unit PDFDoc

/-- The page loop of `extractPDFText` (lines 152–160): iterate pages
`1..NumPage`, appending each page's text to the builder; a page whose
`GetPlainText` fails is skipped with `continue`. -/
def extractPages (d : PDFDoc) : String :=
  (List.range' 1 d.numPages).foldl
    (fun acc i => acc ++ match d.pageText i with | .ok s => s | .error _ => "") ""

/-- `extractPDFText` of `main.go`: read all bytes (failure is a read
error), create the PDF reader (failure is a decode error), then
concatenate the pages. -/
def extractPDFText (f : FileInput) : Except PDFErr String :=
  match f.readAll with
  | .error _ => .error .readErr
  | .ok _ =>
    match f.pdfDoc with
    | .error _ => .error .decodeErr
    | .ok d => .ok (extractPages d)

/-- `isValidContentType` of `main.go`. -/
def isValidContentType (ct : String) : Bool :=
  ct == "text/plain" || ct == "application/pdf"

/-- Observable outcome of `handleUpload`: 400 for an invalid declared
type, 500 for a content-reading error, or the stored analysis and the
identifier returned to the client. -/
inductive UploadResult where
  | invalidType
  | readContentError
  | stored (id : String) (a : Analysis)
deriving DecidableEq

/-- Lines 82–91 of `handleUpload`: obtain the text of the upload and the
value of the outer `err` at line 93.  The model reproduces the variable
shadowing at line 87: in the `text/plain` branch
`content, err := io.ReadAll(file)` declares a new `err`, so the outer
`err` tested at line 93 is never set by that branch and a failed read
leaves `text` empty instead of aborting. -/
def obtainText (ct : String) (f : FileInput) : String × Bool :=
  if ct == "application/pdf" then
    match extractPDFText f with
    | .ok t => (t, false)
    | .error _ => ("", true)
  else
    match f.readAll with
    | .ok t => (t, false)
    | .error _ => ("", false)

/-- `handleUpload` of `main.go` after a successful `FormFile`: validate
the declared content type, obtain the text, process it and commit the
analysis under the fresh identifier. -/
def handleUpload (ct : String) (f : FileInput) (order : List String) (newId : String)
    (st : Store) : UploadResult × Store :=
  if !isValidContentType ct then (.invalidType, st)
  else if (obtainText ct f).2 then (.readContentError, st)
  else
    (.stored newId { ID := newId, Frequencies := processText (obtainText ct f).1 order },
      Store.create st newId (processText (obtainText ct f).1 order))

/-- Observable outcome of `handleGetAnalysis`: 404 or the analysis. -/
inductive GetResult where
  | notFound
  | found (a : Analysis)
deriving DecidableEq

/-- `handleGetAnalysis` of `main.go`: look the identifier up in the
store; absent keys answer 404, present keys answer the stored value. -/
def handleGetAnalysis (st : Store) (id : String) : GetResult :=
  match Store.get st id with
  | none => .notFound
  | some a => .found a

/-- The stores reachable in a run of the program: the store starts empty
(`NewStore`) and is only ever modified by `handleUpload`. -/
inductive ReachableStore : Store → Prop where
  | empty : ReachableStore []
  | upload (ct : String) (f : FileInput) (order : List String) (newId : String)
      (st : Store) : ReachableStore st → ReachableStore (handleUpload ct f order newId st).2

/-! ### Per-page concatenation, spec side -/

/-- The text a page contributes: its extracted text, or nothing when its
extraction fails. -/
def pageTextOrEmpty (d : PDFDoc) (i : Nat) : String :=
  match d.pageText i with | .ok s => s | .error _ => ""

/-- Modelled from the spec: the concatenation, in page order 1..N, of the
per-page texts, a failing page contributing no text (section 4.4). -/
def pagesConcatSpec (d : PDFDoc) : String :=
  String.join ((List.range' 1 d.numPages).map (pageTextOrEmpty d))

/-! ### Helper lemmas about list scanning -/

theorem drop_takeWhile_length {α : Type} (p : α → Bool) (l : List α) :
    l.drop (l.takeWhile p).length = l.dropWhile p := by
  induction l with
  | nil => rfl
  | cons a l ih =>
    by_cases h : p a
    · simp [List.takeWhile_cons, List.dropWhile_cons, h, ih]
    · simp [List.takeWhile_cons, List.dropWhile_cons, h]

theorem head?_dropWhile_not {α : Type} (p : α → Bool) (l : List α) :
    ∀ c, (l.dropWhile p).head? = some c → p c = false := by
  induction l with
  | nil => intro c h; simp at h
  | cons a l ih =>
    intro c h
    rw [List.dropWhile_cons] at h
    by_cases hp : p a
    · exact ih c (by simpa [hp] using h)
    · rw [if_neg (by simp [hp])] at h
      simp only [List.head?_cons, Option.some.injEq] at h
      subst h
      exact Bool.eq_false_iff.mpr hp

theorem shrinkRev_first_boundary (next : Option Char) (c : Char) (rs : List Char)
    (h : (isWordCharGo c != optWordChar next) = true) :
    shrinkRev next (c :: rs) = some (c :: rs) := by
  simp [shrinkRev, h]

/-! ### The tokenizer equivalence

Whenever every character of the (lower-cased) text is a letter exactly
when it is an ASCII word character — that is, the text contains no digit,
no underscore and no non-ASCII letter — the boundary assertions of the
regex are satisfied exactly at the edges of the maximal letter runs, and
the scan of `FindAllString` returns exactly those runs.
-/

theorem goFindAllB_eq_letterRunsB :
    ∀ (n : Nat) (cs : List Char) (p : Option Char),
      cs.length ≤ n →
      (∀ c ∈ cs, isLetterGo c = isWordCharGo c) →
      (optWordChar p = false ∨ ∀ c, cs.head? = some c → isLetterGo c = false) →
      goFindAllB n p cs = letterRunsB n cs := by
  intro n
  induction n with
  | zero =>
    intro cs p hlen _ _
    have : cs = [] := List.eq_nil_of_length_eq_zero (Nat.le_zero.mp hlen)
    subst this
    rfl
  | succ n ih =>
    intro cs p hlen hcond hinv
    match cs with
    | [] => rfl
    | c :: cs' =>
      have hlen' : cs'.length ≤ n := Nat.succ_le_succ_iff.mp hlen
      by_cases hc : isLetterGo c = true
      · -- a letter at a run start: the engine matches the whole run
        have hpw : optWordChar p = false := by
          rcases hinv with h | h
          · exact h
          · exact absurd (h c rfl) (by simp [hc])
        have hw : isWordCharGo c = true := (hcond c (List.mem_cons_self c cs')).symm.trans hc
        have hcondition : (isLetterGo c && (optWordChar p != isWordCharGo c)) = true := by
          rw [hc, hpw, hw]; rfl
        obtain ⟨d, ds, hrev⟩ :
            ∃ d ds, (c :: cs'.takeWhile isLetterGo).reverse = d :: ds := by
          cases hr : (c :: cs'.takeWhile isLetterGo).reverse with
          | nil => exact absurd (List.reverse_eq_nil_iff.mp hr) (List.cons_ne_nil c _)
          | cons d ds => exact ⟨d, ds, rfl⟩
        have hd_mem : d ∈ c :: cs'.takeWhile isLetterGo := by
          have : d ∈ (c :: cs'.takeWhile isLetterGo).reverse := by
            rw [hrev]; exact List.mem_cons_self d ds
          exact List.mem_reverse.mp this
        have hd_letter : isLetterGo d = true := by
          rcases List.mem_cons.mp hd_mem with h | h
          · rw [h]; exact hc
          · exact List.mem_takeWhile_imp h
        have hd_word : isWordCharGo d = true := by
          have hd_cs : d ∈ c :: cs' := by
            rcases List.mem_cons.mp hd_mem with h | h
            · rw [h]; exact List.mem_cons_self c cs'
            · exact List.mem_cons_of_mem c ((List.takeWhile_sublist _).mem h)
          exact (hcond d hd_cs).symm.trans hd_letter
        have hnext : optWordChar (cs'.dropWhile isLetterGo).head? = false := by
          cases hh : (cs'.dropWhile isLetterGo).head? with
          | none => rfl
          | some e =>
            have he_nl : isLetterGo e = false := head?_dropWhile_not _ _ e hh
            have he_mem : e ∈ c :: cs' := by
              have : e ∈ cs'.dropWhile isLetterGo := by
                cases hdw : cs'.dropWhile isLetterGo with
                | nil => rw [hdw] at hh; simp at hh
                | cons x xs =>
                  rw [hdw] at hh
                  simp only [List.head?_cons, Option.some.injEq] at hh
                  rw [hh] at *
                  exact List.mem_cons_self e xs
              exact List.mem_cons_of_mem c ((List.dropWhile_sublist _).mem this)
            simp only [optWordChar, ← hcond e he_mem, he_nl]
        have hshrink :
            shrinkRev (cs'.dropWhile isLetterGo).head? (c :: cs'.takeWhile isLetterGo).reverse =
              some (d :: ds) := by
          rw [hrev]
          exact shrinkRev_first_boundary _ _ _ (by rw [hd_word, hnext]; rfl)
        have hdrop :
            (c :: cs').drop (d :: ds).length = cs'.dropWhile isLetterGo := by
          have hlength : (d :: ds).length = (c :: cs'.takeWhile isLetterGo).length := by
            rw [← hrev, List.length_reverse]
          rw [hlength]
          simp only [List.length_cons, List.drop_succ_cons]
          exact drop_takeWhile_length isLetterGo cs'
        have hrestlen : (cs'.dropWhile isLetterGo).length ≤ n :=
          Nat.le_trans ((List.dropWhile_sublist _).length_le) hlen'
        have hrestcond : ∀ e ∈ cs'.dropWhile isLetterGo, isLetterGo e = isWordCharGo e :=
          fun e he =>
            hcond e (List.mem_cons_of_mem c ((List.dropWhile_sublist _).mem he))
        have hrestinv :
            optWordChar (d :: ds).head? = false ∨
              ∀ e, (cs'.dropWhile isLetterGo).head? = some e → isLetterGo e = false :=
          Or.inr fun e he => head?_dropWhile_not _ _ e he
        rw [goFindAllB, if_pos hcondition, hshrink]
        show (d :: ds).reverse ::
            goFindAllB n (d :: ds).head? ((c :: cs').drop (d :: ds).length) =
          letterRunsB (n + 1) (c :: cs')
        rw [hdrop]
        have hrevrev : (d :: ds).reverse = c :: cs'.takeWhile isLetterGo := by
          rw [← hrev, List.reverse_reverse]
        rw [hrevrev, ih _ _ hrestlen hrestcond hrestinv, letterRunsB, if_pos hc]
      · -- not a letter: both scans skip the character
        have hcb : isLetterGo c = false := Bool.eq_false_iff.mpr hc
        have hstep : goFindAllB (n + 1) p (c :: cs') = goFindAllB n (some c) cs' := by
          rw [goFindAllB]
          rw [if_neg (by rw [hcb]; simp)]
        rw [hstep, letterRunsB, if_neg (by rw [hcb]; simp)]
        exact ih _ _ hlen'
          (fun e he => hcond e (List.mem_cons_of_mem c he))
          (Or.inl (by simp only [optWordChar, ← hcond c (List.mem_cons_self c cs'), hcb]))

/-! ### Counting lemmas for the aggregation -/

theorem sum_map_add_nat {α : Type} (f g : α → Nat) (l : List α) :
    (l.map fun x => f x + g x).sum = (l.map f).sum + (l.map g).sum := by
  induction l with
  | nil => rfl
  | cons a l ih => simp only [List.map_cons, List.sum_cons, ih]; omega

theorem sum_map_ite_eq {α : Type} [DecidableEq α] (a : α) (d : List α) :
    (d.map fun w => if a == w then 1 else 0).sum = d.count a := by
  induction d with
  | nil => rfl
  | cons b d ih =>
    rw [List.map_cons, List.sum_cons, ih, List.count_cons]
    by_cases h : a = b
    · rw [if_pos (by simpa using h), if_pos (by simpa using h.symm)]; omega
    · rw [if_neg (by simpa using h), if_neg (by simpa using fun hh : b = a => h hh.symm)]
      omega

/-- Summing, over a duplicate-free list `d` covering every element of
`l`, the number of occurrences in `l` recovers the length of `l`. -/
theorem sum_counts_eq_length {α : Type} [DecidableEq α] (d : List α) (hd : d.Nodup) :
    ∀ l : List α, (∀ x ∈ l, x ∈ d) → (d.map fun w => l.count w).sum = l.length := by
  intro l
  induction l with
  | nil => intro _; simp
  | cons a l ih =>
    intro hcover
    have hsum : (d.map fun w => (a :: l).count w).sum =
        (d.map fun w => l.count w).sum + (d.map fun w => if a == w then 1 else 0).sum := by
      have hfun : (fun w => List.count w (a :: l)) =
          fun w => List.count w l + if a == w then 1 else 0 := by
        funext w; rw [List.count_cons]
      rw [hfun, sum_map_add_nat]
    rw [hsum, ih fun x hx => hcover x (List.mem_cons_of_mem a hx), sum_map_ite_eq,
      List.count_eq_one_of_mem hd (hcover a (List.mem_cons_self a l))]
    rfl

/-! ## The claims -/

/-- C1, counterexample: on the input text a underscore b, every
non-letter should act purely as a separator, so the spec's tokenizer
yields the tokens a and b; but the underscore is an ASCII word character,
so neither letter run is delimited by word boundaries and the code's
tokenizer yields no token at all. -/
theorem tokenizeGo_ne_tokenizeSpec :
    tokenizeGo "a_b" = [] ∧ tokenizeSpec "a_b" = ["a", "b"] ∧
      tokenizeGo "a_b" ≠ tokenizeSpec "a_b" := by decide

/-- C1, amended: for every input text all of whose characters are ASCII
and whose lower-cased characters are each either a letter or a character
that is neither a letter nor a word character (so the text contains no
digit, no underscore and no non-ASCII character), the tokenizer returns
exactly the maximal runs of letter characters of the lower-cased text,
in left-to-right order of appearance, every non-letter acting purely as
a separator.  In general the ASCII word-boundary assertions of the regex
make digits and underscores adjacent to letters suppress or truncate
tokens.  The first hypothesis confines the text to the ASCII range, on
which this embedding of the lowering and of the letter class is exact;
outside it the model deliberately claims nothing. -/
theorem tokenizeGo_eq_letter_runs (s : String)
    (hascii : ∀ c ∈ s.toList, isAsciiChar c = true)
    (h : ∀ c ∈ s.toList.map Char.toLower, isLetterGo c = isWordCharGo c) :
    tokenizeGo s = tokenizeSpec s := by
  unfold tokenizeGo tokenizeSpec goFindAll letterRuns
  rw [goFindAllB_eq_letterRunsB _ _ none le_rfl h (Or.inl rfl)]

/-- Witness for the amended C1 at the concrete text "The cat, sat!". -/
theorem tokenizeGo_eq_letter_runs_witness :
    (∀ c ∈ "The cat, sat!".toList, isAsciiChar c = true) ∧
      (∀ c ∈ "The cat, sat!".toList.map Char.toLower, isLetterGo c = isWordCharGo c) ∧
      tokenizeGo "The cat, sat!" = tokenizeSpec "The cat, sat!" :=
  ⟨by decide, by decide, tokenizeGo_eq_letter_runs "The cat, sat!" (by decide) (by decide)⟩

/-- C2: the claim says an unreadable byte stream terminates the request
with a read error and stores nothing; evaluating the handler on a
text/plain upload whose read fails shows the code instead analyzes the
empty string, stores the empty analysis and answers with an identifier —
the `err` declared by the short variable declaration at line 87 shadows
the outer `err` tested at line 93, a slip contradicted by the dead error
check the code itself carries. -/
theorem upload_swallows_read_error :
    handleUpload "text/plain" ⟨.error (), .error ()⟩ [] "id-1" [] =
      (.stored "id-1" { ID := "id-1", Frequencies := [] },
        [("id-1", { ID := "id-1", Frequencies := [] })]) := by decide

/-- C3, counterexample: two valid Go-map iteration orders of the same
token sequence produce different aggregation outputs, and the output of
the first is not in ascending lexicographic order among equal
frequencies; the aggregation is not deterministic across runs. -/
theorem aggregate_depends_on_iter_order :
    ValidIterOrder ["b", "a"] ["b", "a"] ∧ ValidIterOrder ["b", "a"] ["a", "b"] ∧
      aggregate ["b", "a"] ["b", "a"] ≠ aggregate ["b", "a"] ["a", "b"] ∧
      aggregate ["b", "a"] ["b", "a"] = [⟨"b", 1⟩, ⟨"a", 1⟩] := by decide

/-- C3, amended: the aggregation is deterministic only up to map
iteration order: for every token sequence, any two valid iteration
orders yield outputs that are permutations of each other; the relative
order of equal-frequency entries follows the iteration order, and no
lexicographic secondary ordering is applied. -/
theorem aggregate_perm_of_iter_orders (tokens o₁ o₂ : List String)
    (h₁ : ValidIterOrder tokens o₁) (h₂ : ValidIterOrder tokens o₂) :
    (aggregate tokens o₁).Perm (aggregate tokens o₂) := by
  unfold aggregate sortFreqs
  unfold ValidIterOrder at h₁ h₂
  exact ((List.perm_insertionSort _ _).trans
    ((h₁.trans h₂.symm).map _)).trans (List.perm_insertionSort _ _).symm

/-- Witness for the amended C3 at the token sequence b, a. -/
theorem aggregate_perm_of_iter_orders_witness :
    ValidIterOrder ["b", "a"] ["a", "b"] ∧ ValidIterOrder ["b", "a"] ["b", "a"] ∧
      (aggregate ["b", "a"] ["a", "b"]).Perm (aggregate ["b", "a"] ["b", "a"]) :=
  ⟨by decide, by decide,
    aggregate_perm_of_iter_orders ["b", "a"] ["a", "b"] ["b", "a"] (by decide) (by decide)⟩

/-- C4: for every token sequence given to the aggregator (under any
valid map iteration order), the frequencies sum to the length of the
token sequence, and the word values are exactly the distinct tokens. -/
theorem aggregate_mass_and_support (tokens order : List String)
    (h : ValidIterOrder tokens order) :
    ((aggregate tokens order).map WordFrequency.Frequency).sum = tokens.length ∧
      ∀ w, w ∈ (aggregate tokens order).map WordFrequency.Word ↔ w ∈ tokens := by
  unfold ValidIterOrder at h
  have hperm :
      (aggregate tokens order).Perm (order.map fun w => ⟨w, tokens.count w⟩) := by
    unfold aggregate sortFreqs
    exact List.perm_insertionSort _ _
  constructor
  · rw [(hperm.map WordFrequency.Frequency).sum_eq, List.map_map]
    have hcomp :
        (order.map (WordFrequency.Frequency ∘ fun w => ⟨w, tokens.count w⟩)).sum =
          (order.map fun w => tokens.count w).sum := rfl
    rw [hcomp, (h.map fun w => tokens.count w).sum_eq]
    exact sum_counts_eq_length tokens.dedup (List.nodup_dedup tokens) tokens
      fun x hx => List.mem_dedup.mpr hx
  · intro w
    rw [(hperm.map WordFrequency.Word).mem_iff, List.map_map]
    have hcomp : order.map (WordFrequency.Word ∘ fun w => ⟨w, tokens.count w⟩) = order :=
      List.map_id order
    rw [hcomp, h.mem_iff, List.mem_dedup]

/-- Witness for C4 at the token sequence the, cat, the. -/
theorem aggregate_mass_and_support_witness :
    ValidIterOrder ["the", "cat", "the"] ["cat", "the"] ∧
      ((aggregate ["the", "cat", "the"] ["cat", "the"]).map WordFrequency.Frequency).sum = 3 ∧
      ∀ w, w ∈ (aggregate ["the", "cat", "the"] ["cat", "the"]).map WordFrequency.Word ↔
        w ∈ ["the", "cat", "the"] :=
  ⟨by decide,
    (aggregate_mass_and_support ["the", "cat", "the"] ["cat", "the"] (by decide)).1,
    (aggregate_mass_and_support ["the", "cat", "the"] ["cat", "the"] (by decide)).2⟩

/-- C5: every frequency sequence `processText` produces is sorted
non-increasing by frequency, has pairwise-distinct word values, and
every frequency is positive. -/
theorem processText_wellformed (text : String) (order : List String)
    (h : ValidIterOrder (tokenizeGo text) order) :
    List.Sorted freqGe (processText text order) ∧
      ((processText text order).map WordFrequency.Word).Nodup ∧
      ∀ e ∈ processText text order, 0 < e.Frequency := by
  unfold ValidIterOrder at h
  unfold processText aggregate sortFreqs
  refine ⟨List.sorted_insertionSort freqGe _, ?_, ?_⟩
  · have hperm :
        ((List.insertionSort freqGe
            ((order.map fun w => ⟨w, (tokenizeGo text).count w⟩))).map
          WordFrequency.Word).Perm
          ((order.map fun w => ⟨w, (tokenizeGo text).count w⟩).map WordFrequency.Word) :=
      (List.perm_insertionSort _ _).map _
    rw [hperm.nodup_iff, List.map_map]
    have hcomp :
        order.map (WordFrequency.Word ∘ fun w => ⟨w, (tokenizeGo text).count w⟩) = order :=
      List.map_id order
    rw [hcomp]
    exact h.nodup_iff.mpr (List.nodup_dedup _)
  · intro e he
    rw [List.mem_insertionSort] at he
    obtain ⟨w, hw, rfl⟩ := List.mem_map.mp he
    have hwt : w ∈ tokenizeGo text := List.mem_dedup.mp (h.mem_iff.mp hw)
    exact List.count_pos_iff.mpr hwt

/-- Witness for C5 at the text b a b with iteration order a, b. -/
theorem processText_wellformed_witness :
    ValidIterOrder (tokenizeGo "b a b") ["a", "b"] ∧
      (List.Sorted freqGe (processText "b a b" ["a", "b"]) ∧
        ((processText "b a b" ["a", "b"]).map WordFrequency.Word).Nodup ∧
        ∀ e ∈ processText "b a b" ["a", "b"], 0 < e.Frequency) :=
  ⟨by decide, processText_wellformed "b a b" ["a", "b"] (by decide)⟩

/-- C6: creating an analysis from a frequency sequence and reading it
back under the returned identifier yields exactly that sequence (and an
`ID` equal to the identifier). -/
theorem store_roundtrip (st : Store) (id : String) (f : List WordFrequency) :
    Store.get (Store.create st id f) id = some { ID := id, Frequencies := f } := by
  unfold Store.get Store.create Store.set
  rw [List.find?_cons_of_pos _ (by simp)]
  rfl

/-- C7: a declared media type other than text/plain and application/pdf
makes the handler fail before any processing, leaving the store
untouched. -/
theorem upload_rejects_bad_type (ct : String) (f : FileInput) (order : List String)
    (newId : String) (st : Store) (h1 : ct ≠ "text/plain") (h2 : ct ≠ "application/pdf") :
    handleUpload ct f order newId st = (.invalidType, st) := by
  have hv : isValidContentType ct = false := by
    unfold isValidContentType
    simp [h1, h2]
  unfold handleUpload
  rw [hv]
  rfl

/-- Witness for C7 at the declared media type application/json. -/
theorem upload_rejects_bad_type_witness :
    handleUpload "application/json" ⟨.ok "", .error ()⟩ [] "id-2" [] = (.invalidType, []) :=
  upload_rejects_bad_type "application/json" ⟨.ok "", .error ()⟩ [] "id-2" []
    (by decide) (by decide)

/-- C8: looking an identifier up never crashes: an identifier stored
under no entry answers not-found, and a successful lookup returns
exactly the entry stored under that identifier. -/
theorem get_total_spec (st : Store) (id : String) :
    (id ∉ st.map Prod.fst → handleGetAnalysis st id = .notFound) ∧
      ∀ a, Store.get st id = some a → (id, a) ∈ st ∧ handleGetAnalysis st id = .found a := by
  constructor
  · intro hab
    unfold handleGetAnalysis Store.get
    have hnone : st.find? (fun e => e.1 == id) = none := by
      rw [List.find?_eq_none]
      intro e he hbeq
      exact hab (List.mem_map.mpr ⟨e, he, by simpa using hbeq⟩)
    rw [hnone]
    rfl
  · intro a ha
    unfold Store.get at ha
    cases hf : st.find? (fun e => e.1 == id) with
    | none => rw [hf] at ha; simp at ha
    | some e =>
      rw [hf, Option.map_some'] at ha
      have ha2 : e.2 = a := by simpa using ha
      have he1 : e.1 = id := by simpa using List.find?_some hf
      have hmem := List.mem_of_find?_eq_some hf
      refine ⟨?_, ?_⟩
      · have : (id, a) = e := by rw [← he1, ← ha2]
        rw [this]; exact hmem
      · unfold handleGetAnalysis Store.get
        rw [hf, Option.map_some', ha2]

/-- Witness for C8: a lookup of a nonexistent identifier answers
not-found. -/
theorem get_total_spec_witness :
    handleGetAnalysis [("k", { ID := "k", Frequencies := [] })] "nonexistent-id" =
      .notFound :=
  (get_total_spec [("k", { ID := "k", Frequencies := [] })] "nonexistent-id").1 (by decide)

/-- C9: for every PDF whose byte stream reads fully and whose structure
the reader accepts, the extraction succeeds and returns precisely the
concatenation of the per-page texts in page order 1..N, a page whose
extraction fails contributing no text and not failing the whole
extraction. -/
theorem extractPDFText_concats_pages (content : String) (d : PDFDoc) :
    extractPDFText ⟨.ok content, .ok d⟩ = .ok (pagesConcatSpec d) := by
  show Except.ok (extractPages d) = Except.ok (pagesConcatSpec d)
  unfold extractPages pagesConcatSpec
  have hfold :
      (List.range' 1 d.numPages).foldl
          (fun acc i => acc ++ match d.pageText i with | .ok s => s | .error _ => "") "" =
        ((List.range' 1 d.numPages).map (pageTextOrEmpty d)).foldl (· ++ ·) "" := by
    rw [List.foldl_map]
    rfl
  rw [hfold]
  rfl

/-- Every reachable store maps each key to an analysis whose `ID` field
is that key: the store starts empty and `handleUpload` only ever inserts
an analysis built with the key it is inserted under. -/
theorem reachable_store_wf (st : Store) (hst : ReachableStore st) :
    ∀ e ∈ st, e.2.ID = e.1 := by
  induction hst with
  | empty => intro e he; simp at he
  | upload ct f order newId st' _ ih =>
    intro e he
    unfold handleUpload at he
    by_cases hv : (!isValidContentType ct) = true
    · rw [if_pos hv] at he
      exact ih e he
    · rw [if_neg hv] at he
      by_cases herr : (obtainText ct f).2 = true
      · rw [if_pos herr] at he
        exact ih e he
      · rw [if_neg herr] at he
        unfold Store.create Store.set at he
        rcases List.mem_cons.mp he with h | h
        · rw [h]
        · exact ih e (List.mem_of_mem_filter h)

/-- C10: every reachable store maps each identifier to an analysis whose
`ID` field is that identifier, so a successful lookup returns an
analysis whose `ID` equals the requested identifier. -/
theorem get_preserves_id (st : Store) (hst : ReachableStore st) (id : String)
    (a : Analysis) (hget : Store.get st id = some a) : a.ID = id := by
  have hwf : ∀ e ∈ st, e.2.ID = e.1 := reachable_store_wf st hst
  unfold Store.get at hget
  cases hf : List.find? (fun e => e.1 == id) st with
  | none => rw [hf] at hget; simp at hget
  | some e =>
    rw [hf, Option.map_some'] at hget
    have ha2 : e.2 = a := by simpa using hget
    have he1 : e.1 = id := by simpa using List.find?_some hf
    rw [← ha2, hwf e (List.mem_of_find?_eq_some hf), he1]

/-- Witness for C10: the store reached by one successful upload, read
back at the minted identifier. -/
theorem get_preserves_id_witness :
    ({ ID := "id-1", Frequencies := [⟨"a", 1⟩] } : Analysis).ID = "id-1" :=
  get_preserves_id
    (handleUpload "text/plain" ⟨.ok "a", .error ()⟩ ["a"] "id-1" []).2
    (ReachableStore.upload "text/plain" ⟨.ok "a", .error ()⟩ ["a"] "id-1" []
      ReachableStore.empty)
    "id-1" { ID := "id-1", Frequencies := [⟨"a", 1⟩] } (by decide)

end WordCountApi
